import Mathlib

/-!
Verification of the NCM container decryptor core (crate `ncmdump`):
cipher primitives (`cipher.rs`), the container parser and audio dump
loop (`decoder.rs`), and the metadata decoder (`metadata.rs`).

Machine bytes are modelled as `Nat` values with explicit `% 256` /
`^^^` arithmetic; the 256-entry RC4 S-box is a total function
`Fin 256 → Fin 256`; fallible steps return `Option` / `Except`.
Rust panics (out-of-range slice indexing, indexing an empty key) are
modelled as an explicit `PFail.panic` outcome.  The external crates
used by the parser (AES-128-ECB, base64, serde_json) are abstracted
as function parameters collected in `ExtPrims`.
-/

/-- Reduce a natural number into `Fin 256`; this is the `& 0xff` /
`wrapping_add` arithmetic of the Rust `u8` operations. -/
def fin256 (n : Nat) : Fin 256 := ⟨n % 256, Nat.mod_lt _ (by norm_num)⟩

/-- The RC4 S-box: a 256-entry byte table, `key_box` in the source. -/
def Sbox : Type := Fin 256 → Fin 256

/-- Loop state of `rc4_ksa` in `cipher.rs`: the S-box being permuted,
the `last_byte` accumulator and the `key_offset` cursor. -/
structure KState where
  sbox : Sbox
  last : Nat
  ko : Nat

/-- One iteration of the `for i in 0..256` loop of `rc4_ksa`
(`cipher.rs` lines 29-39): `swap = sbox[i]`,
`c = swap.wrapping_add(last_byte).wrapping_add(key[key_offset])`,
advance `key_offset` with wrap-around, `sbox[i] = sbox[c]` (reading
`sbox[c]` before it is overwritten), `sbox[c] = swap`, `last_byte = c`. -/
def ksaStep (key : List Nat) (st : KState) (i : Nat) : KState :=
  let swap := st.sbox (fin256 i)
  let c := (swap.val + st.last + key.getD st.ko 0) % 256
  let ko1 := st.ko + 1
  { sbox := Function.update (Function.update st.sbox (fin256 i) (st.sbox (fin256 c)))
      (fin256 c) swap
    last := c
    ko := if key.length ≤ ko1 then 0 else ko1 }

/-- Run `n` iterations of the KSA loop starting at index `a`. -/
def ksaLoop (key : List Nat) (st : KState) (a : Nat) : Nat → KState
  | 0 => st
  | n + 1 => ksaLoop key (ksaStep key st a) (a + 1) n

/-- Initial KSA state: `S[i] = i`, `last_byte = 0`, `key_offset = 0`. -/
def ksaInit : KState := ⟨fun i => i, 0, 0⟩

/-- The Netease-form RC4 key scheduling of `rc4_ksa` (`cipher.rs`
lines 19-42).  The Rust source indexes `key[key_offset]`; since
`key_offset` stays below `key.len()` whenever the key is non-empty,
that indexing panics exactly when the key is empty, which is modelled
as `none`. -/
def rc4_ksa (key : List Nat) : Option Sbox :=
  if key.isEmpty then none
  else some (ksaLoop key ksaInit 0 256).sbox

/-- Modified RC4 keystream byte at a stream offset (`cipher.rs` lines
46-50): `j = (offset + 1) & 0xff`, `jv = key_box[j]`, result
`key_box[(jv + key_box[(jv + j) & 0xff]) & 0xff]`.  The S-box is a
read-only argument. -/
def rc4_stream_byte (key_box : Sbox) (offset : Nat) : Fin 256 :=
  let j := (offset + 1) % 256
  let jv := (key_box (fin256 j)).val
  key_box (fin256 (jv + (key_box (fin256 (jv + j))).val))

/-- Loop state of the spec's standard RC4 KSA: the S-box and `j`. -/
structure SState where
  sbox : Sbox
  j : Nat

/-- Modelled from the spec: one iteration of the standard RC4
key-scheduling algorithm as worded in the claim —
`j := (j + S[i] + K[i mod L]) mod 256`, then swap `S[i]` and `S[j]`. -/
def stdStep (key : List Nat) (st : SState) (i : Nat) : SState :=
  let j1 := (st.j + (st.sbox (fin256 i)).val + key.getD (i % key.length) 0) % 256
  { sbox := Function.update (Function.update st.sbox (fin256 i) (st.sbox (fin256 j1)))
      (fin256 j1) (st.sbox (fin256 i))
    j := j1 }

/-- Run `n` iterations of the standard KSA loop starting at index `a`. -/
def stdLoop (key : List Nat) (st : SState) (a : Nat) : Nat → SState
  | 0 => st
  | n + 1 => stdLoop key (stdStep key st a) (a + 1) n

/-- Modelled from the spec: the standard RC4 KSA referenced by the
refinement claim, `for i in 0..256: j := (j + S[i] + K[i mod L]) mod
256; swap S[i] and S[j]`, starting from the identity S-box. -/
def standard_rc4_ksa (key : List Nat) : Sbox :=
  (stdLoop key ⟨fun i => i, 0⟩ 0 256).sbox

/-- XOR a byte sequence against the keystream starting at stream
position `off`; this is the per-byte `*byte ^= rc4_stream_byte(...)`
of both `dump_audio` and the format sniff in `decoder.rs`. -/
def xorStream (S : Sbox) (off : Nat) : List Nat → List Nat
  | [] => []
  | b :: bs => (b ^^^ (rc4_stream_byte S off).val) :: xorStream S (off + 1) bs

/-- The read/decrypt/write loop of `dump_audio` (`decoder.rs` lines
154-164).  `chunks` are the successive byte counts delivered by
`r.read`; a read returning `0` bytes terminates the loop.  The writer
output is the concatenation of the decrypted chunks. -/
def dumpLoop (S : Sbox) (off : Nat) : List (List Nat) → List Nat
  | [] => []
  | ch :: rest =>
    if ch.isEmpty then []
    else xorStream S off ch ++ dumpLoop S (off + ch.length) rest

/-- Decrypted audio written by `NcmFile::dump_audio` when the reader,
after the seek to `audio_offset`, delivers the given chunks. -/
def dump_audio (S : Sbox) (chunks : List (List Nat)) : List Nat :=
  dumpLoop S 0 chunks

/-- A `Read + Seek` byte source: the underlying bytes plus the cursor. -/
structure Rdr where
  data : List Nat
  pos : Nat

/-- Advance the cursor (`SeekFrom::Current` on a forward distance). -/
def seekCur (n : Nat) (r : Rdr) : Rdr := ⟨r.data, r.pos + n⟩

/-- Error kinds of `NcmError` reachable from `NcmFile::parse`. -/
inductive PErr where
  | invalidMagic
  | io
  | decrypt
  | base64
  | json
deriving DecidableEq

/-- Outcome of a fallible parser step: a documented error, or a Rust
panic (out-of-range slice, indexing an empty key). -/
inductive PFail where
  | err (e : PErr)
  | panic
deriving DecidableEq

/-- Model of `read_exact` on a seekable byte source: deliver exactly
`n` bytes at the cursor, or fail with `Io` when the source is short. -/
def readE (n : Nat) (r : Rdr) : Except PFail (List Nat × Rdr) :=
  if r.pos + n ≤ r.data.length then
    Except.ok ((r.data.drop r.pos).take n, ⟨r.data, r.pos + n⟩)
  else Except.error (PFail.err PErr.io)

/-- Model of the Rust slice `&v[n..]`: panics when `n > v.len()`. -/
def panicSlice (v : List Nat) (n : Nat) : Except PFail (List Nat) :=
  if n ≤ v.length then Except.ok (v.drop n) else Except.error PFail.panic

/-- The typed metadata record of `metadata.rs` (`NcmMetadata`). -/
structure NcmMeta where
  musicName : String
  album : String
  artist : List (List String)
  bitrate : Nat
  duration : Nat
  format : String
deriving DecidableEq

/-- Modelled from the spec: the external primitives used by the parser
— AES-128-ECB/PKCS7 decryption (the `aes`/`ecb` crates, keyed), strict
base64 decoding (the `base64` crate), and JSON deserialization into
the metadata record (`serde_json`).  A failing decrypt/decode/parse is
`none`. -/
structure ExtPrims where
  aesDec : List Nat → List Nat → Option (List Nat)
  b64decode : List Nat → Option (List Nat)
  jsonDecode : List Nat → Option NcmMeta

/-- NCM file magic `CTENFDAM` (`decoder.rs` line 11). -/
def NCM_MAGIC : List Nat := [0x43, 0x54, 0x45, 0x4E, 0x46, 0x44, 0x41, 0x4D]

/-- AES key for the RC4 key section (`decoder.rs` lines 14-16). -/
def CORE_KEY : List Nat :=
  [0x68, 0x7A, 0x48, 0x52, 0x41, 0x6D, 0x73, 0x6F,
   0x35, 0x6B, 0x49, 0x6E, 0x62, 0x61, 0x78, 0x57]

/-- AES key for the metadata section (`decoder.rs` lines 19-21). -/
def MODIFY_KEY : List Nat :=
  [0x23, 0x31, 0x34, 0x6C, 0x6A, 0x6B, 0x5F, 0x21,
   0x5C, 0x5D, 0x26, 0x30, 0x55, 0x3C, 0x27, 0x28]

/-- The ASCII bytes of the string spelling m-u-s-i-c-colon. -/
def musicPrefix : List Nat := [0x6D, 0x75, 0x73, 0x69, 0x63, 0x3A]

/-- Audio format reported by the parser (`decoder.rs` lines 23-27). -/
inductive AudioFormat where
  | Mp3
  | Flac
deriving DecidableEq

/-- Parsed NCM container (`NcmFile` in `decoder.rs`). -/
structure NcmFileM where
  metadata : Option NcmMeta
  cover_image : Option (List Nat)
  format : AudioFormat
  key_box : Sbox
  audio_offset : Nat

/-- `NcmMetadata::from_decrypted` (`metadata.rs` lines 18-26): strip a
6-byte prefix when the input starts with it, then JSON-parse. -/
def from_decrypted (P : ExtPrims) (dta : List Nat) : Option NcmMeta :=
  P.jsonDecode (if musicPrefix.isPrefixOf dta then dta.drop 6 else dta)

/-- Tail of the metadata pipeline in `NcmFile::parse` (`decoder.rs`
lines 84-85): slice off the first 6 bytes of the AES plaintext
(`&decrypted[6..]`, panicking when shorter), then `from_decrypted`;
a JSON failure surfaces as `Json`. -/
def metaTail (P : ExtPrims) (decrypted : List Nat) : Except PFail NcmMeta :=
  Except.bind (panicSlice decrypted 6) (fun rest =>
    match from_decrypted P rest with
    | some m => Except.ok m
    | none => Except.error (PFail.err PErr.json))

/-- Metadata section processing of `NcmFile::parse` (`decoder.rs`
lines 75-85): XOR with `0x63`, slice off 22 bytes (`&meta_data[22..]`,
panicking when shorter), base64-decode, AES-decrypt with `MODIFY_KEY`,
then `metaTail`. -/
def metaSection (P : ExtPrims) (metaData : List Nat) : Except PFail NcmMeta :=
  Except.bind (panicSlice (metaData.map (fun b => b ^^^ 0x63)) 22) (fun b64 =>
    match P.b64decode b64 with
    | none => Except.error (PFail.err PErr.base64)
    | some decoded =>
      match P.aesDec MODIFY_KEY decoded with
      | none => Except.error (PFail.err PErr.decrypt)
      | some decrypted => metaTail P decrypted)

/-- Key section processing of `NcmFile::parse` (`decoder.rs` lines
64-70): XOR with `0x64`, AES-decrypt with `CORE_KEY`, slice off 17
bytes (`&key_decrypted[17..]`, panicking when shorter), then run the
KSA (which panics on an empty key). -/
def keySection (P : ExtPrims) (keyData : List Nat) : Except PFail Sbox :=
  match P.aesDec CORE_KEY (keyData.map (fun b => b ^^^ 0x64)) with
  | none => Except.error (PFail.err PErr.decrypt)
  | some keyDec =>
    Except.bind (panicSlice keyDec 17) (fun rc4Key =>
      match rc4_ksa rc4Key with
      | some kb => Except.ok kb
      | none => Except.error PFail.panic)

/-- `u32::from_le_bytes` on a 4-byte buffer. -/
def u32le (bs : List Nat) : Nat :=
  bs.getD 0 0 + bs.getD 1 0 * 256 + bs.getD 2 0 * 65536 + bs.getD 3 0 * 16777216

/-- Metadata branch of `NcmFile::parse` (`decoder.rs` lines 74-88):
when `meta_len > 0` read and process the section, otherwise skip. -/
def parseMetaPart (P : ExtPrims) (ml : Nat) (r : Rdr) :
    Except PFail (Option NcmMeta × Rdr) :=
  if 0 < ml then
    Except.bind (readE ml r) (fun x =>
      Except.bind (metaSection P x.1) (fun m => Except.ok (some m, x.2)))
  else Except.ok (none, r)

/-- Cover-image branch of `NcmFile::parse` (`decoder.rs` lines
96-110): when `image_size > 0` read the image and skip the positive
declared padding `cover_frame_len - image_size`; otherwise skip
`cover_frame_len` bytes with no image. -/
def parseCoverPart (cfl isz : Nat) (r : Rdr) :
    Except PFail (Option (List Nat) × Rdr) :=
  if 0 < isz then
    Except.bind (readE isz r) (fun x =>
      Except.ok (some x.1,
        if (cfl : Int) - (isz : Int) > 0
        then seekCur ((cfl : Int) - (isz : Int)).toNat x.2 else x.2))
  else Except.ok (none, if 0 < cfl then seekCur cfl r else r)

/-- Final steps 7-8 of `NcmFile::parse` (`decoder.rs` lines 112-134):
record `audio_offset`, read 3 header bytes, XOR them against keystream
positions 0-2, compare with `49 44 33`, and assemble the result.  The
second component is the reader's final position. -/
def parseTail (kb : Sbox) (md : Option NcmMeta) (cover : Option (List Nat))
    (r : Rdr) : Except PFail (NcmFileM × Nat) :=
  Except.bind (readE 3 r) (fun x =>
    Except.ok (⟨md, cover,
      (if xorStream kb 0 x.1 = [0x49, 0x44, 0x33] then AudioFormat.Mp3
       else AudioFormat.Flac), kb, r.pos⟩, x.2.pos))

/-- `NcmFile::parse` (`decoder.rs` lines 49-134): magic, 2-byte gap,
key section, metadata section, 5-byte skip, cover frame, audio offset,
format sniff.  Returns the parsed container and the reader's final
position, or the failure. -/
def parse (P : ExtPrims) (d : List Nat) : Except PFail (NcmFileM × Nat) :=
  Except.bind (readE 8 (Rdr.mk d 0)) (fun x1 =>
    if x1.1 = NCM_MAGIC then
      Except.bind (readE 4 (seekCur 2 x1.2)) (fun x2 =>
        Except.bind (readE (u32le x2.1) x2.2) (fun x3 =>
          Except.bind (keySection P x3.1) (fun keyBox =>
            Except.bind (readE 4 x3.2) (fun x4 =>
              Except.bind (parseMetaPart P (u32le x4.1) x4.2) (fun x5 =>
                Except.bind (readE 4 (seekCur 5 x5.2)) (fun x6 =>
                  Except.bind (readE 4 x6.2) (fun x7 =>
                    Except.bind (parseCoverPart (u32le x6.1) (u32le x7.1) x7.2)
                      (fun x8 => parseTail keyBox x5.1 x8.1 x8.2))))))))
    else Except.error (PFail.err PErr.invalidMagic))

/-- The `key_len` field: bytes 10-13 of the input. -/
def klOf (d : List Nat) : Nat := u32le ((d.drop 10).take 4)

/-- The `meta_len` field: 4 bytes after the key section. -/
def mlOf (d : List Nat) : Nat := u32le ((d.drop (14 + klOf d)).take 4)

/-- The `cover_frame_len` field: 4 bytes after the 5-byte skip. -/
def cflOf (d : List Nat) : Nat := u32le ((d.drop (23 + klOf d + mlOf d)).take 4)

/-- The `image_size` field: 4 bytes after `cover_frame_len`. -/
def iszOf (d : List Nat) : Nat := u32le ((d.drop (27 + klOf d + mlOf d)).take 4)

/-- Bytes the reader advances across the cover frame: the image plus
positive padding when `image_size > 0`, else `cover_frame_len`. -/
def coverAdvOf (d : List Nat) : Nat :=
  if 0 < iszOf d then iszOf d + ((cflOf d : Int) - (iszOf d : Int)).toNat
  else cflOf d

/-- Everything `parse` guarantees about a successful result: magic
matched, the key box comes from the key section, metadata/cover
presence mirrors the length fields, the audio offset and final
position arithmetic, and the sniffed format. -/
def ParseFacts (P : ExtPrims) (d : List Nat) (f : NcmFileM) (p : Nat) : Prop :=
  f.audio_offset + 3 ≤ d.length ∧
  d.take 8 = NCM_MAGIC ∧
  keySection P ((d.drop 14).take (klOf d)) = Except.ok f.key_box ∧
  ((mlOf d = 0 ∧ f.metadata = none) ∨
    (0 < mlOf d ∧ ∃ m, f.metadata = some m ∧
      metaSection P ((d.drop (18 + klOf d)).take (mlOf d)) = Except.ok m)) ∧
  ((iszOf d = 0 ∧ f.cover_image = none) ∨
    (0 < iszOf d ∧
      f.cover_image = some ((d.drop (31 + klOf d + mlOf d)).take (iszOf d)))) ∧
  f.audio_offset = 31 + klOf d + mlOf d + coverAdvOf d ∧
  p = f.audio_offset + 3 ∧
  f.format = (if xorStream f.key_box 0 ((d.drop f.audio_offset).take 3)
    = [0x49, 0x44, 0x33] then AudioFormat.Mp3 else AudioFormat.Flac)

/-- Conditional strip of the m-u-s-i-c-colon prefix, as performed by
`from_decrypted`. -/
def stripMusic6 (l : List Nat) : List Nat :=
  if musicPrefix.isPrefixOf l then l.drop 6 else l

/-- The claim's reading of the metadata tail: the JSON parser receives
exactly the decrypted plaintext minus its first 6 bytes, no more and
no fewer. -/
def claimedMetaTail (P : ExtPrims) (decrypted : List Nat) : Except PFail NcmMeta :=
  match P.jsonDecode (decrypted.drop 6) with
  | some m => Except.ok m
  | none => Except.error (PFail.err PErr.json)

/-- The identity S-box, used as a concrete sample table. -/
def sid : Sbox := fun i => i

/-- A concrete metadata record. -/
def m0 : NcmMeta := ⟨"", "", [], 0, 0, ""⟩

/-- Primitives whose JSON decoder accepts exactly the byte string that
the claim predicts the metadata tail hands over for `dec2`. -/
def P2 : ExtPrims :=
  ⟨fun _ _ => none, fun _ => none,
   fun l => if l = musicPrefix ++ [65] then some m0 else none⟩

/-- A decrypted metadata plaintext that begins with the 6-byte prefix
twice. -/
def dec2 : List Nat := musicPrefix ++ musicPrefix ++ [65]

/-- Primitives whose AES decrypt always yields an 18-byte plaintext. -/
def P1 : ExtPrims :=
  ⟨fun _ _ => some (List.replicate 18 0), fun _ => none, fun _ => none⟩

/-- A container whose metadata length field is 1: the metadata bytes
are read, but slicing 22 bytes off a 1-byte buffer panics. -/
def d1ce : List Nat :=
  NCM_MAGIC ++ [0, 0] ++ [1, 0, 0, 0] ++ [5] ++ [1, 0, 0, 0] ++ [0]

/-- Primitives whose AES decrypt yields a 17-byte prefix plus a 1-byte
RC4 key. -/
def P0 : ExtPrims :=
  ⟨fun _ _ => some (List.replicate 17 0 ++ [7]), fun _ => none, fun _ => none⟩

/-- A complete well-formed container: 1-byte key field, no metadata,
no cover, 3 audio bytes. -/
def d0w : List Nat :=
  NCM_MAGIC ++ [0, 0] ++ [1, 0, 0, 0] ++ [9] ++ [0, 0, 0, 0] ++
    [0, 0, 0, 0, 0] ++ [0, 0, 0, 0] ++ [0, 0, 0, 0] ++ [1, 2, 3]

/-- The container parsed from `d0w`. -/
def F0 : NcmFileM :=
  match parse P0 d0w with
  | Except.ok (f, _) => f
  | Except.error _ => ⟨none, none, AudioFormat.Flac, fun i => i, 0⟩

/-- The final reader position after parsing `d0w`. -/
def p0w : Nat :=
  match parse P0 d0w with
  | Except.ok (_, q) => q
  | Except.error _ => 0

/-- The container `d0w` with a trailing byte appended past the audio
header. -/
def d10b : List Nat := d0w ++ [77]

/-- Primitives with the JSON decoder post-composed with a rewrite of
the decoded record (e.g. a change of its `format` string). -/
def withJson (P : ExtPrims) (g : NcmMeta → NcmMeta) : ExtPrims :=
  { P with jsonDecode := fun l => (P.jsonDecode l).map g }

/-- The double `Function.update` of one KSA iteration is composition
with a transposition. -/
theorem update_update_eq_comp_swap (s : Sbox) (i c : Fin 256) :
    Function.update (Function.update s i (s c)) c (s i) = s ∘ (Equiv.swap i c) := by
  funext x
  by_cases hxc : x = c
  · subst hxc
    by_cases hxi : x = i
    · subst hxi
      simp [Function.update_apply, Equiv.swap_self]
    · simp [Function.update_apply, Equiv.swap_apply_def, hxi]
  · by_cases hxi : x = i
    · subst hxi
      simp [Function.update_apply, Equiv.swap_apply_def, hxc]
    · simp [Function.update_apply, Equiv.swap_apply_def, hxc, hxi]

/-- One KSA iteration keeps the S-box bijective. -/
theorem ksaStep_bijective (key : List Nat) (st : KState) (a : Nat)
    (h : Function.Bijective st.sbox) :
    Function.Bijective (ksaStep key st a).sbox := by
  simp only [ksaStep]
  rw [update_update_eq_comp_swap]
  exact h.comp (Equiv.swap _ _).bijective

/-- The KSA loop keeps the S-box bijective. -/
theorem ksaLoop_bijective (key : List Nat) :
    ∀ (n a : Nat) (st : KState), Function.Bijective st.sbox →
      Function.Bijective (ksaLoop key st a n).sbox := by
  intro n
  induction n with
  | zero => intro a st h; exact h
  | succ n ih =>
    intro a st h
    exact ih (a + 1) (ksaStep key st a) (ksaStep_bijective key st a h)

/-- C2 (counterexample): the claim quantifies over every key byte
sequence, but on the empty key the Rust loop indexes `key[0]` out of
bounds and panics, so no S-box is returned. -/
theorem rc4_ksa_empty_key_counterexample : rc4_ksa [] = none := rfl

/-- C2 (amended): for every non-empty key byte sequence, `rc4_ksa`
terminates with a 256-byte S-box that is a permutation of `0..=255`
(the table is bijective), and the result is unique, so two independent
runs on the same key return identical S-boxes. -/
theorem rc4_ksa_perm_nonempty (K : List Nat) (h : K ≠ []) :
    ∃ S, rc4_ksa K = some S ∧ Function.Bijective S ∧
      ∀ S2, rc4_ksa K = some S2 → S2 = S := by
  cases K with
  | nil => exact absurd rfl h
  | cons a as =>
    refine ⟨(ksaLoop (a :: as) ksaInit 0 256).sbox, rfl, ?_, ?_⟩
    · exact ksaLoop_bijective (a :: as) 256 0 ksaInit Function.bijective_id
    · intro S2 hS2
      have hr : rc4_ksa (a :: as) = some ((ksaLoop (a :: as) ksaInit 0 256).sbox) := rfl
      rw [hr] at hS2
      exact (Option.some.inj hS2).symm

/-- C2 (witness): instantiation at the one-byte key `[7]`. -/
theorem rc4_ksa_perm_nonempty_witness :
    ∃ S, rc4_ksa [7] = some S ∧ Function.Bijective S ∧
      ∀ S2, rc4_ksa [7] = some S2 → S2 = S :=
  rc4_ksa_perm_nonempty [7] (by decide)

/-- C4: the keystream byte at position `n` is exactly
`S[(S[j] + S[(S[j] + j) & 0xff]) & 0xff]` with `j = (n + 1) & 0xff`,
computed from the S-box alone; in this embedding the S-box is a
read-only value, so the byte at a position is a pure function of
`(S, n)`, independent of all earlier positions. -/
theorem rc4_stream_byte_formula (S : Sbox) (n : Nat) :
    rc4_stream_byte S n =
      S (fin256 ((S (fin256 ((n + 1) % 256))).val +
        (S (fin256 ((S (fin256 ((n + 1) % 256))).val + (n + 1) % 256))).val)) ∧
    rc4_stream_byte S n = rc4_stream_byte S n :=
  ⟨rfl, rfl⟩

/-- Stepping the `key_offset` cursor with wrap-around agrees with
indexing by `(a + 1) % L`. -/
theorem succ_ko_eq (a L : Nat) (hL : 0 < L) :
    (if L ≤ a % L + 1 then 0 else a % L + 1) = (a + 1) % L := by
  have hmd := Nat.mod_add_div a L
  have h1 : a + 1 = (a % L + 1) + L * (a / L) := by omega
  have h2 : (a + 1) % L = (a % L + 1) % L := by
    rw [h1, Nat.add_mul_mod_self_left]
  have he : a % L < L := Nat.mod_lt _ hL
  by_cases hc : L ≤ a % L + 1
  · have h3 : a % L + 1 = L := by omega
    rw [if_pos hc, h2, h3, Nat.mod_self]
  · rw [if_neg hc, h2]
    exact (Nat.mod_eq_of_lt (by omega)).symm

/-- The Netease KSA loop and the spec's standard KSA loop stay in
lock-step: equal S-boxes, `last_byte = j`, and the key cursor tracks
`i mod L`. -/
theorem ksa_std_loop (key : List Nat) (hk : key ≠ []) :
    ∀ (n a : Nat) (st : KState) (sst : SState),
      st.sbox = sst.sbox → st.last = sst.j → st.ko = a % key.length →
      (ksaLoop key st a n).sbox = (stdLoop key sst a n).sbox ∧
      (ksaLoop key st a n).last = (stdLoop key sst a n).j ∧
      (ksaLoop key st a n).ko = (a + n) % key.length := by
  have hL : 0 < key.length := List.length_pos.mpr hk
  intro n
  induction n with
  | zero =>
    intro a st sst h1 h2 h3
    exact ⟨h1, h2, by simpa using h3⟩
  | succ n ih =>
    intro a st sst h1 h2 h3
    have hsum : (sst.sbox (fin256 a)).val + sst.j + key.getD (a % key.length) 0 =
        sst.j + (sst.sbox (fin256 a)).val + key.getD (a % key.length) 0 := by
      omega
    have hstep1 : (ksaStep key st a).sbox = (stdStep key sst a).sbox := by
      simp only [ksaStep, stdStep, h1, h2, h3, hsum]
    have hstep2 : (ksaStep key st a).last = (stdStep key sst a).j := by
      simp only [ksaStep, stdStep, h1, h2, h3, hsum]
    have hstep3 : (ksaStep key st a).ko = (a + 1) % key.length := by
      simp only [ksaStep, h3]
      exact succ_ko_eq a key.length hL
    have hrec := ih (a + 1) (ksaStep key st a) (stdStep key sst a) hstep1 hstep2 hstep3
    refine ⟨hrec.1, hrec.2.1, ?_⟩
    show (ksaLoop key (ksaStep key st a) (a + 1) n).ko = (a + (n + 1)) % key.length
    rw [hrec.2.2]
    congr 1
    omega

/-- C5: on every non-empty key, the Netease-form KSA of `rc4_ksa`
(accumulating `c` with the `S[c]` read before the write) produces
exactly the S-box of the standard RC4 key-scheduling algorithm. -/
theorem rc4_ksa_eq_standard (K : List Nat) (h : K ≠ []) :
    rc4_ksa K = some (standard_rc4_ksa K) := by
  cases K with
  | nil => exact absurd rfl h
  | cons a as =>
    have hmain := ksa_std_loop (a :: as) h 256 0 ksaInit ⟨fun i => i, 0⟩ rfl rfl
      (by simp [ksaInit])
    exact congrArg some hmain.1

/-- C5 (witness): instantiation at the key `[1, 2, 3]`. -/
theorem rc4_ksa_eq_standard_witness :
    rc4_ksa [1, 2, 3] = some (standard_rc4_ksa [1, 2, 3]) :=
  rc4_ksa_eq_standard [1, 2, 3] (by decide)

/-- Keystream XOR distributes over append, with the offset advanced by
the first block's length. -/
theorem xorStream_append (S : Sbox) : ∀ (l1 l2 : List Nat) (off : Nat),
    xorStream S off (l1 ++ l2) = xorStream S off l1 ++ xorStream S (off + l1.length) l2 := by
  intro l1
  induction l1 with
  | nil => intro l2 off; simp [xorStream]
  | cons b bs ih =>
    intro l2 off
    show (b ^^^ (rc4_stream_byte S off).val) :: xorStream S (off + 1) (bs ++ l2) =
      (b ^^^ (rc4_stream_byte S off).val) ::
        (xorStream S (off + 1) bs ++ xorStream S (off + (bs.length + 1)) l2)
    exact congrArg _
      (by rw [ih, (by omega : off + 1 + bs.length = off + (bs.length + 1))])

/-- Keystream XOR preserves length. -/
theorem xorStream_length (S : Sbox) : ∀ (l : List Nat) (off : Nat),
    (xorStream S off l).length = l.length := by
  intro l
  induction l with
  | nil => intro off; rfl
  | cons b bs ih => intro off; simp [xorStream, ih]

/-- Byte `i` of the keystream XOR is the input byte XORed with the
keystream byte at position `off + i`. -/
theorem xorStream_getD (S : Sbox) : ∀ (l : List Nat) (off i : Nat), i < l.length →
    (xorStream S off l).getD i 0 = l.getD i 0 ^^^ (rc4_stream_byte S (off + i)).val := by
  intro l
  induction l with
  | nil => intro off i h; simp at h
  | cons b bs ih =>
    intro off i h
    cases i with
    | zero => simp [xorStream]
    | succ i =>
      have hi : i < bs.length := by simpa using h
      have h2 := ih (off + 1) i hi
      simp only [xorStream, List.getD_cons_succ]
      rw [h2]
      have h3 : off + 1 + i = off + (i + 1) := by omega
      rw [h3]

/-- XORing against the same keystream twice restores the input. -/
theorem xorStream_xorStream (S : Sbox) : ∀ (l : List Nat) (off : Nat),
    xorStream S off (xorStream S off l) = l := by
  intro l
  induction l with
  | nil => intro off; rfl
  | cons b bs ih =>
    intro off
    simp only [xorStream, ih, List.cons.injEq, and_true]
    exact Nat.xor_cancel_right _ _

/-- When no intermediate read returns zero bytes, the dump loop
decrypts exactly the concatenation of the delivered chunks. -/
theorem dumpLoop_flatten (S : Sbox) : ∀ (chunks : List (List Nat)) (off : Nat),
    (∀ ch ∈ chunks, ch ≠ []) →
    dumpLoop S off chunks = xorStream S off chunks.flatten := by
  intro chunks
  induction chunks with
  | nil => intro off h; rfl
  | cons ch rest ih =>
    intro off h
    have hch : ch ≠ [] := h ch (List.mem_cons_self ch rest)
    have hrest : ∀ c ∈ rest, c ≠ [] := fun c hc => h c (List.mem_cons_of_mem ch hc)
    have hne : ch.isEmpty = false := by
      cases ch with
      | nil => exact absurd rfl hch
      | cons x xs => rfl
    simp only [dumpLoop, hne, Bool.false_eq_true, if_false, List.flatten_cons,
      xorStream_append, ih (off + ch.length) hrest]

/-- C1: `dump_audio` writes exactly as many bytes as the reader holds
past the audio offset, each output byte `i` being the input byte `i`
XORed with the keystream byte at position `i`; the output depends only
on the concatenation of the chunks (so it is invariant to the reader's
chunking), a payload built by XORing an original file with the
keystream is restored bit-exactly, and an empty payload yields an
empty output. -/
theorem dump_audio_stream_spec (S : Sbox) (chunks : List (List Nat))
    (h : ∀ ch ∈ chunks, ch ≠ []) :
    dump_audio S chunks = xorStream S 0 chunks.flatten ∧
    (dump_audio S chunks).length = chunks.flatten.length ∧
    (∀ i, i < chunks.flatten.length →
      (dump_audio S chunks).getD i 0 =
        chunks.flatten.getD i 0 ^^^ (rc4_stream_byte S i).val) ∧
    (∀ chunks2, (∀ ch ∈ chunks2, ch ≠ []) → chunks2.flatten = chunks.flatten →
      dump_audio S chunks2 = dump_audio S chunks) ∧
    (∀ orig, chunks.flatten = xorStream S 0 orig → dump_audio S chunks = orig) ∧
    (chunks.flatten = [] → dump_audio S chunks = []) := by
  have hmain : dump_audio S chunks = xorStream S 0 chunks.flatten :=
    dumpLoop_flatten S chunks 0 h
  refine ⟨hmain, ?_, ?_, ?_, ?_, ?_⟩
  · rw [hmain, xorStream_length]
  · intro i hi
    rw [hmain]
    have h2 := xorStream_getD S chunks.flatten 0 i hi
    simpa using h2
  · intro chunks2 h2 hflat
    have hmain2 : dump_audio S chunks2 = xorStream S 0 chunks2.flatten :=
      dumpLoop_flatten S chunks2 0 h2
    rw [hmain2, hflat, hmain]
  · intro orig horig
    rw [hmain, horig, xorStream_xorStream]
  · intro hnil
    rw [hmain, hnil]
    rfl

/-- C1 (witness): instantiation at the identity S-box with the payload
delivered as two chunks. -/
theorem dump_audio_stream_spec_witness :
    dump_audio sid [[1], [2, 3]] = xorStream sid 0 ([[1], [2, 3]] : List (List Nat)).flatten ∧
    (dump_audio sid [[1], [2, 3]]).length = ([[1], [2, 3]] : List (List Nat)).flatten.length ∧
    (∀ i, i < ([[1], [2, 3]] : List (List Nat)).flatten.length →
      (dump_audio sid [[1], [2, 3]]).getD i 0 =
        ([[1], [2, 3]] : List (List Nat)).flatten.getD i 0 ^^^ (rc4_stream_byte sid i).val) ∧
    (∀ chunks2, (∀ ch ∈ chunks2, ch ≠ []) →
      chunks2.flatten = ([[1], [2, 3]] : List (List Nat)).flatten →
      dump_audio sid chunks2 = dump_audio sid [[1], [2, 3]]) ∧
    (∀ orig, ([[1], [2, 3]] : List (List Nat)).flatten = xorStream sid 0 orig →
      dump_audio sid [[1], [2, 3]] = orig) ∧
    (([[1], [2, 3]] : List (List Nat)).flatten = [] → dump_audio sid [[1], [2, 3]] = []) :=
  dump_audio_stream_spec sid [[1], [2, 3]] (by decide)

/-- Inversion of a successful `Except.bind`. -/
theorem bindOk {α β : Type} {ma : Except PFail α} {k : α → Except PFail β} {b : β} :
    Except.bind ma k = Except.ok b ↔ ∃ a, ma = Except.ok a ∧ k a = Except.ok b := by
  cases ma with
  | error e => simp [Except.bind]
  | ok a => simp [Except.bind]

/-- Inversion of a failing `Except.bind`. -/
theorem bindErr {α β : Type} {ma : Except PFail α} {k : α → Except PFail β} {e : PFail} :
    Except.bind ma k = Except.error e ↔
      ma = Except.error e ∨ ∃ a, ma = Except.ok a ∧ k a = Except.error e := by
  cases ma with
  | error e2 => simp [Except.bind]
  | ok a => simp [Except.bind]

/-- Inversion of a successful `readE`. -/
theorem readE_ok {n : Nat} {r : Rdr} {y : List Nat × Rdr} :
    readE n r = Except.ok y ↔
      r.pos + n ≤ r.data.length ∧
      y = ((r.data.drop r.pos).take n, Rdr.mk r.data (r.pos + n)) := by
  unfold readE
  split
  · rename_i h
    simp [h, eq_comm]
  · rename_i h
    simp [h]

/-- A failing `readE` is always the `Io` error. -/
theorem readE_err {n : Nat} {r : Rdr} {e : PFail} (h : readE n r = Except.error e) :
    e = PFail.err PErr.io := by
  unfold readE at h
  split at h
  · exact absurd h (by simp)
  · exact (Except.error.inj h).symm

/-- Inversion of a successful `panicSlice`. -/
theorem panicSlice_ok {v : List Nat} {n : Nat} {w : List Nat} :
    panicSlice v n = Except.ok w ↔ n ≤ v.length ∧ w = v.drop n := by
  unfold panicSlice
  split
  · rename_i h
    simp [h, eq_comm]
  · rename_i h
    simp [h]

/-- A failing `panicSlice` is the panic outcome on a short buffer. -/
theorem panicSlice_err {v : List Nat} {n : Nat} {e : PFail}
    (h : panicSlice v n = Except.error e) : e = PFail.panic ∧ v.length < n := by
  unfold panicSlice at h
  split at h
  · exact absurd h (by simp)
  · rename_i h2
    exact ⟨(Except.error.inj h).symm, by omega⟩

/-- Inversion of the metadata branch of the parser. -/
theorem parseMetaPart_ok {P : ExtPrims} {ml : Nat} {r : Rdr}
    {y : Option NcmMeta × Rdr} (h : parseMetaPart P ml r = Except.ok y) :
    y.2 = Rdr.mk r.data (r.pos + ml) ∧
    ((ml = 0 ∧ y.1 = none) ∨
      (0 < ml ∧ r.pos + ml ≤ r.data.length ∧ ∃ m, y.1 = some m ∧
        metaSection P ((r.data.drop r.pos).take ml) = Except.ok m)) := by
  unfold parseMetaPart at h
  split at h
  · rename_i h0
    rw [bindOk] at h
    obtain ⟨x, hx, h⟩ := h
    rw [readE_ok] at hx
    obtain ⟨hb, rfl⟩ := hx
    rw [bindOk] at h
    obtain ⟨m, hm, h⟩ := h
    have hy := Except.ok.inj h
    subst hy
    exact ⟨rfl, Or.inr ⟨h0, hb, m, rfl, hm⟩⟩
  · rename_i h0
    have hy := Except.ok.inj h
    subst hy
    refine ⟨?_, Or.inl ⟨by omega, rfl⟩⟩
    have hml : ml = 0 := by omega
    subst hml
    rfl

/-- Inversion of the cover-image branch of the parser. -/
theorem parseCoverPart_ok {cfl isz : Nat} {r : Rdr}
    {y : Option (List Nat) × Rdr} (h : parseCoverPart cfl isz r = Except.ok y) :
    y.2.data = r.data ∧
    ((isz = 0 ∧ y.1 = none ∧ y.2.pos = r.pos + cfl) ∨
      (0 < isz ∧ r.pos + isz ≤ r.data.length ∧
        y.1 = some ((r.data.drop r.pos).take isz) ∧
        y.2.pos = r.pos + isz + ((cfl : Int) - (isz : Int)).toNat)) := by
  unfold parseCoverPart at h
  split at h
  · rename_i h0
    rw [bindOk] at h
    obtain ⟨x, hx, h⟩ := h
    rw [readE_ok] at hx
    obtain ⟨hb, rfl⟩ := hx
    have hy := Except.ok.inj h
    subst hy
    split
    · rename_i hpad
      refine ⟨rfl, Or.inr ⟨h0, hb, rfl, ?_⟩⟩
      show (Rdr.mk r.data (r.pos + isz)).pos + ((cfl : Int) - (isz : Int)).toNat = _
      rfl
    · rename_i hpad
      refine ⟨rfl, Or.inr ⟨h0, hb, rfl, ?_⟩⟩
      have hz : ((cfl : Int) - (isz : Int)).toNat = 0 :=
        Int.toNat_of_nonpos (by omega)
      show (Rdr.mk r.data (r.pos + isz)).pos = _
      rw [hz]
      rfl
  · rename_i h0
    have hy := Except.ok.inj h
    subst hy
    have hisz : isz = 0 := by omega
    split
    · rename_i hcfl
      exact ⟨rfl, Or.inl ⟨hisz, rfl, rfl⟩⟩
    · rename_i hcfl
      have hc0 : cfl = 0 := by omega
      refine ⟨rfl, Or.inl ⟨hisz, rfl, ?_⟩⟩
      show r.pos = r.pos + cfl
      omega

/-- Inversion of the final audio-offset / format-sniff steps. -/
theorem parseTail_ok {kb : Sbox} {md : Option NcmMeta} {cover : Option (List Nat)}
    {r : Rdr} {y : NcmFileM × Nat} (h : parseTail kb md cover r = Except.ok y) :
    r.pos + 3 ≤ r.data.length ∧
    y = (⟨md, cover,
      (if xorStream kb 0 ((r.data.drop r.pos).take 3) = [0x49, 0x44, 0x33]
        then AudioFormat.Mp3 else AudioFormat.Flac), kb, r.pos⟩, r.pos + 3) := by
  unfold parseTail at h
  rw [bindOk] at h
  obtain ⟨x, hx, h⟩ := h
  rw [readE_ok] at hx
  obtain ⟨hb, rfl⟩ := hx
  have hy := Except.ok.inj h
  subst hy
  exact ⟨hb, rfl⟩

/-- Constructor projection of the reader data. -/
theorem rdr_data (dd : List Nat) (pp : Nat) : (Rdr.mk dd pp).data = dd := rfl

/-- Constructor projection of the reader position. -/
theorem rdr_pos (dd : List Nat) (pp : Nat) : (Rdr.mk dd pp).pos = pp := rfl

/-- Forward inversion of a successful `parse`: everything recorded in
`ParseFacts` holds of the result. -/
theorem parse_ok_spec {P : ExtPrims} {d : List Nat} {f : NcmFileM} {p : Nat}
    (h : parse P d = Except.ok (f, p)) : ParseFacts P d f p := by
  unfold parse at h
  obtain ⟨x1, h1, h⟩ := bindOk.mp h
  obtain ⟨hb1, hx1⟩ := readE_ok.mp h1
  have hx1e : x1 = (d.take 8, Rdr.mk d 8) := hx1.trans rfl
  subst hx1e
  simp only [] at h
  by_cases hmag : d.take 8 = NCM_MAGIC
  · rw [if_pos hmag] at h
    obtain ⟨x2, h2, h⟩ := bindOk.mp h
    obtain ⟨hb2, hx2⟩ := readE_ok.mp h2
    have hx2e : x2 = ((d.drop 10).take 4, Rdr.mk d 14) := hx2.trans rfl
    subst hx2e
    simp only [] at h
    obtain ⟨x3, h3, h⟩ := bindOk.mp h
    obtain ⟨hb3, hx3⟩ := readE_ok.mp h3
    have hx3e : x3 = ((d.drop 14).take (klOf d), Rdr.mk d (14 + klOf d)) := hx3.trans rfl
    subst hx3e
    simp only [] at h
    obtain ⟨kb, hkb, h⟩ := bindOk.mp h
    obtain ⟨x4, h4, h⟩ := bindOk.mp h
    obtain ⟨hb4, hx4⟩ := readE_ok.mp h4
    have hx4e : x4 = ((d.drop (14 + klOf d)).take 4, Rdr.mk d (14 + klOf d + 4)) :=
      hx4.trans rfl
    subst hx4e
    have hb4e : 14 + klOf d + 4 ≤ d.length := hb4
    simp only [] at h
    rw [(by omega : 14 + klOf d + 4 = 18 + klOf d)] at h
    obtain ⟨x5, h5, h⟩ := bindOk.mp h
    have hmeta := parseMetaPart_ok h5
    have hx52 : x5.2 = Rdr.mk d (18 + klOf d + mlOf d) := hmeta.1.trans rfl
    rw [hx52] at h
    have hseek5 : seekCur 5 (Rdr.mk d (18 + klOf d + mlOf d)) =
        Rdr.mk d (23 + klOf d + mlOf d) := by
      show Rdr.mk d (18 + klOf d + mlOf d + 5) = _
      rw [(by omega : 18 + klOf d + mlOf d + 5 = 23 + klOf d + mlOf d)]
    rw [hseek5] at h
    obtain ⟨x6, h6, h⟩ := bindOk.mp h
    obtain ⟨hb6, hx6⟩ := readE_ok.mp h6
    have hx6e : x6 = ((d.drop (23 + klOf d + mlOf d)).take 4,
        Rdr.mk d (23 + klOf d + mlOf d + 4)) := hx6.trans rfl
    subst hx6e
    simp only [] at h
    rw [(by omega : 23 + klOf d + mlOf d + 4 = 27 + klOf d + mlOf d)] at h
    obtain ⟨x7, h7, h⟩ := bindOk.mp h
    obtain ⟨hb7, hx7⟩ := readE_ok.mp h7
    have hx7e : x7 = ((d.drop (27 + klOf d + mlOf d)).take 4,
        Rdr.mk d (27 + klOf d + mlOf d + 4)) := hx7.trans rfl
    subst hx7e
    simp only [] at h
    rw [(by omega : 27 + klOf d + mlOf d + 4 = 31 + klOf d + mlOf d)] at h
    obtain ⟨x8, h8c, h⟩ := bindOk.mp h
    have hcov := parseCoverPart_ok h8c
    have hdata : x8.2.data = d := hcov.1.trans rfl
    have htail := parseTail_ok h
    have hf : f = ⟨x5.1, x8.1,
        (if xorStream kb 0 ((x8.2.data.drop x8.2.pos).take 3) = [0x49, 0x44, 0x33]
          then AudioFormat.Mp3 else AudioFormat.Flac), kb, x8.2.pos⟩ :=
      congrArg Prod.fst htail.2
    have hp : p = x8.2.pos + 3 := congrArg Prod.snd htail.2
    have hb : x8.2.pos + 3 ≤ d.length := by
      have := htail.1
      rw [hdata] at this
      exact this
    have hcovpos : x8.2.pos = 31 + klOf d + mlOf d + coverAdvOf d := by
      rcases hcov.2 with ⟨hisz, _, hpos⟩ | ⟨hisz, _, _, hpos⟩
      · have hisz2 : iszOf d = 0 := hisz
        have hpos2 : x8.2.pos = 31 + klOf d + mlOf d + cflOf d := hpos.trans rfl
        rw [hpos2]
        unfold coverAdvOf
        rw [if_neg (by omega : ¬0 < iszOf d)]
      · have hisz2 : 0 < iszOf d := hisz
        have hpos2 : x8.2.pos = 31 + klOf d + mlOf d + iszOf d +
            ((cflOf d : Int) - (iszOf d : Int)).toNat := hpos.trans rfl
        rw [hpos2]
        unfold coverAdvOf
        rw [if_pos (by omega : 0 < iszOf d)]
        omega
    refine ⟨?_, hmag, ?_, ?_, ?_, ?_, ?_, ?_⟩
    · rw [hf]
      show x8.2.pos + 3 ≤ d.length
      exact hb
    · rw [hf]
      exact hkb
    · rcases hmeta.2 with ⟨hml, hnone⟩ | ⟨hml, _, m, hsome, hms⟩
      · refine Or.inl ⟨hml, ?_⟩
        rw [hf]
        exact hnone
      · refine Or.inr ⟨hml, m, ?_, hms⟩
        rw [hf]
        exact hsome
    · rcases hcov.2 with ⟨hisz, hnone, _⟩ | ⟨hisz, _, hsome, _⟩
      · refine Or.inl ⟨hisz, ?_⟩
        rw [hf]
        exact hnone
      · refine Or.inr ⟨hisz, ?_⟩
        rw [hf]
        exact hsome
    · rw [hf]
      exact hcovpos
    · rw [hf, hp]
    · rw [hf, hdata]
  · rw [if_neg hmag] at h
    simp at h

/-- Reduction of `Except.bind` on a success value. -/
theorem bind_ok_red {α β : Type} (a : α) (k : α → Except PFail β) :
    Except.bind (Except.ok a) k = k a := rfl

/-- Backward direction: the facts recorded in `ParseFacts` pin down
the whole run of `parse`, so they suffice to rebuild the result. -/
theorem parse_build {P : ExtPrims} {d : List Nat} {f : NcmFileM} {p : Nat}
    (hF : ParseFacts P d f p) : parse P d = Except.ok (f, p) := by
  obtain ⟨hb, hmag, hkb, hmeta, hcov, hao, hp, hfmt⟩ := hF
  have hlen : 31 + klOf d + mlOf d + coverAdvOf d + 3 ≤ d.length := by
    rw [← hao]
    omega
  unfold parse
  have h8 : readE 8 (Rdr.mk d 0) = Except.ok (d.take 8, Rdr.mk d 8) :=
    readE_ok.mpr ⟨by show 0 + 8 ≤ d.length; omega, rfl⟩
  rw [h8, bind_ok_red]
  dsimp only
  rw [if_pos hmag]
  have h10 : readE 4 (seekCur 2 (Rdr.mk d 8)) =
      Except.ok ((d.drop 10).take 4, Rdr.mk d 14) :=
    readE_ok.mpr ⟨by show 10 + 4 ≤ d.length; omega, rfl⟩
  rw [h10, bind_ok_red]
  dsimp only
  have ekl : u32le ((d.drop 10).take 4) = klOf d := rfl
  rw [ekl]
  have h14 : readE (klOf d) (Rdr.mk d 14) =
      Except.ok ((d.drop 14).take (klOf d), Rdr.mk d (14 + klOf d)) :=
    readE_ok.mpr ⟨by show 14 + klOf d ≤ d.length; omega, rfl⟩
  rw [h14, bind_ok_red]
  dsimp only
  rw [hkb, bind_ok_red]
  have h18 : readE 4 (Rdr.mk d (14 + klOf d)) =
      Except.ok ((d.drop (14 + klOf d)).take 4, Rdr.mk d (14 + klOf d + 4)) :=
    readE_ok.mpr ⟨by show 14 + klOf d + 4 ≤ d.length; omega, rfl⟩
  rw [h18, bind_ok_red]
  dsimp only
  have eml : u32le ((d.drop (14 + klOf d)).take 4) = mlOf d := rfl
  rw [eml, (show (14 + klOf d + 4 : Nat) = 18 + klOf d by omega)]
  have hmp : parseMetaPart P (mlOf d) (Rdr.mk d (18 + klOf d)) =
      Except.ok (f.metadata, Rdr.mk d (18 + klOf d + mlOf d)) := by
    unfold parseMetaPart
    rcases hmeta with ⟨hml0, hnone⟩ | ⟨hmlpos, m, hsome, hms⟩
    · rw [if_neg (by omega : ¬0 < mlOf d), hnone, hml0]
      rfl
    · rw [if_pos hmlpos]
      have hr : readE (mlOf d) (Rdr.mk d (18 + klOf d)) =
          Except.ok ((d.drop (18 + klOf d)).take (mlOf d),
            Rdr.mk d (18 + klOf d + mlOf d)) :=
        readE_ok.mpr ⟨by show 18 + klOf d + mlOf d ≤ d.length; omega, rfl⟩
      rw [hr, bind_ok_red]
      dsimp only
      rw [hms, bind_ok_red]
      rw [hsome]
  rw [hmp, bind_ok_red]
  dsimp only
  have hseek : seekCur 5 (Rdr.mk d (18 + klOf d + mlOf d)) =
      Rdr.mk d (23 + klOf d + mlOf d) := by
    show Rdr.mk d (18 + klOf d + mlOf d + 5) = _
    rw [(show (18 + klOf d + mlOf d + 5 : Nat) = 23 + klOf d + mlOf d by omega)]
  rw [hseek]
  have h23 : readE 4 (Rdr.mk d (23 + klOf d + mlOf d)) =
      Except.ok ((d.drop (23 + klOf d + mlOf d)).take 4,
        Rdr.mk d (23 + klOf d + mlOf d + 4)) :=
    readE_ok.mpr ⟨by show 23 + klOf d + mlOf d + 4 ≤ d.length; omega, rfl⟩
  rw [h23, bind_ok_red]
  dsimp only
  have ecfl : u32le ((d.drop (23 + klOf d + mlOf d)).take 4) = cflOf d := rfl
  rw [ecfl, (show (23 + klOf d + mlOf d + 4 : Nat) = 27 + klOf d + mlOf d by omega)]
  have h27 : readE 4 (Rdr.mk d (27 + klOf d + mlOf d)) =
      Except.ok ((d.drop (27 + klOf d + mlOf d)).take 4,
        Rdr.mk d (27 + klOf d + mlOf d + 4)) :=
    readE_ok.mpr ⟨by show 27 + klOf d + mlOf d + 4 ≤ d.length; omega, rfl⟩
  rw [h27, bind_ok_red]
  dsimp only
  have eisz : u32le ((d.drop (27 + klOf d + mlOf d)).take 4) = iszOf d := rfl
  rw [eisz, (show (27 + klOf d + mlOf d + 4 : Nat) = 31 + klOf d + mlOf d by omega)]
  have hcp : parseCoverPart (cflOf d) (iszOf d) (Rdr.mk d (31 + klOf d + mlOf d)) =
      Except.ok (f.cover_image, Rdr.mk d f.audio_offset) := by
    unfold parseCoverPart
    rcases hcov with ⟨hisz0, hnone⟩ | ⟨hiszpos, hsome⟩
    · have hadv : coverAdvOf d = cflOf d := by
        unfold coverAdvOf
        rw [if_neg (by omega : ¬0 < iszOf d)]
      rw [if_neg (by omega : ¬0 < iszOf d), hnone]
      have hpos : (if 0 < cflOf d
          then seekCur (cflOf d) (Rdr.mk d (31 + klOf d + mlOf d))
          else Rdr.mk d (31 + klOf d + mlOf d)) = Rdr.mk d f.audio_offset := by
        by_cases hc : 0 < cflOf d
        · rw [if_pos hc]
          show Rdr.mk d (31 + klOf d + mlOf d + cflOf d) = _
          rw [hao, hadv]
        · rw [if_neg hc]
          rw [hao, hadv]
          exact congrArg (Rdr.mk d) (by omega)
      rw [hpos]
    · have hadv : coverAdvOf d = iszOf d + ((cflOf d : Int) - (iszOf d : Int)).toNat := by
        unfold coverAdvOf
        rw [if_pos hiszpos]
      rw [if_pos hiszpos]
      have hr : readE (iszOf d) (Rdr.mk d (31 + klOf d + mlOf d)) =
          Except.ok ((d.drop (31 + klOf d + mlOf d)).take (iszOf d),
            Rdr.mk d (31 + klOf d + mlOf d + iszOf d)) :=
        readE_ok.mpr ⟨by show 31 + klOf d + mlOf d + iszOf d ≤ d.length; omega, rfl⟩
      rw [hr, bind_ok_red]
      dsimp only
      rw [hsome]
      have hfix : (if (cflOf d : Int) - (iszOf d : Int) > 0
          then seekCur ((cflOf d : Int) - (iszOf d : Int)).toNat
            (Rdr.mk d (31 + klOf d + mlOf d + iszOf d))
          else Rdr.mk d (31 + klOf d + mlOf d + iszOf d)) = Rdr.mk d f.audio_offset := by
        by_cases hc : (cflOf d : Int) - (iszOf d : Int) > 0
        · rw [if_pos hc]
          show Rdr.mk d (31 + klOf d + mlOf d + iszOf d +
            ((cflOf d : Int) - (iszOf d : Int)).toNat) = _
          rw [hao, hadv]
          exact congrArg (Rdr.mk d) (by omega)
        · rw [if_neg hc]
          rw [hao, hadv]
          refine congrArg (Rdr.mk d) ?_
          have hz : ((cflOf d : Int) - (iszOf d : Int)).toNat = 0 :=
            Int.toNat_of_nonpos (by omega)
          omega
      rw [hfix]
  rw [hcp, bind_ok_red]
  dsimp only
  unfold parseTail
  have hr3 : readE 3 (Rdr.mk d f.audio_offset) =
      Except.ok ((d.drop f.audio_offset).take 3, Rdr.mk d (f.audio_offset + 3)) :=
    readE_ok.mpr ⟨by show f.audio_offset + 3 ≤ d.length; exact hb, rfl⟩
  rw [hr3, bind_ok_red]
  dsimp only
  rw [← hfmt, hp]

/-- A length-`n` window at offset `p` is determined by any prefix that
covers it. -/
theorem sliceEq (d1 d2 : List Nat) (k p n : Nat)
    (hpre : d1.take k = d2.take k) (hpn : p + n ≤ k) :
    (d2.drop p).take n = (d1.drop p).take n := by
  have h1 : d2.take (p + n) = d1.take (p + n) := by
    have h2 := congrArg (List.take (p + n)) hpre
    rw [List.take_take, List.take_take, Nat.min_eq_left hpn] at h2
    exact h2.symm
  have h3 : ∀ dd : List Nat, (dd.drop p).take n = (dd.take (p + n)).drop p := by
    intro dd
    rw [List.drop_take]
    congr 1
    omega
  rw [h3 d1, h3 d2, h1]

/-- C10: the parse result is a function of the input prefix up to and
including byte `audio_offset + 2`: two inputs agreeing on that prefix
parse to identical containers (key box, audio offset, metadata, cover
and format) and identical final positions; bytes at or after
`audio_offset + 3` never influence the outcome. -/
theorem parse_prefix_determined (P : ExtPrims) (d1 d2 : List Nat)
    (f : NcmFileM) (p : Nat) (h : parse P d1 = Except.ok (f, p))
    (hpre : d1.take (f.audio_offset + 3) = d2.take (f.audio_offset + 3)) :
    parse P d2 = Except.ok (f, p) := by
  obtain ⟨hb, hmag, hkb, hmeta, hcov, hao, hp, hfmt⟩ := parse_ok_spec h
  have hkl : klOf d2 = klOf d1 := by
    unfold klOf
    rw [sliceEq d1 d2 (f.audio_offset + 3) 10 4 hpre (by omega)]
  have hml : mlOf d2 = mlOf d1 := by
    unfold mlOf
    rw [hkl, sliceEq d1 d2 (f.audio_offset + 3) (14 + klOf d1) 4 hpre (by omega)]
  have hcfl : cflOf d2 = cflOf d1 := by
    unfold cflOf
    rw [hkl, hml,
      sliceEq d1 d2 (f.audio_offset + 3) (23 + klOf d1 + mlOf d1) 4 hpre (by omega)]
  have hisz : iszOf d2 = iszOf d1 := by
    unfold iszOf
    rw [hkl, hml,
      sliceEq d1 d2 (f.audio_offset + 3) (27 + klOf d1 + mlOf d1) 4 hpre (by omega)]
  have hadv : coverAdvOf d2 = coverAdvOf d1 := by
    unfold coverAdvOf
    rw [hisz, hcfl]
  have hlen2 : f.audio_offset + 3 ≤ d2.length := by
    have hl := congrArg List.length hpre
    rw [List.length_take, List.length_take] at hl
    omega
  apply parse_build
  refine ⟨hlen2, ?_, ?_, ?_, ?_, ?_, hp, ?_⟩
  · have h8 := sliceEq d1 d2 (f.audio_offset + 3) 0 8 hpre (by omega)
    rw [List.drop_zero, List.drop_zero] at h8
    rw [h8]
    exact hmag
  · rw [hkl, sliceEq d1 d2 (f.audio_offset + 3) 14 (klOf d1) hpre (by omega)]
    exact hkb
  · rcases hmeta with ⟨h0, hn⟩ | ⟨h0, m, hs, hms⟩
    · exact Or.inl ⟨by rw [hml]; exact h0, hn⟩
    · refine Or.inr ⟨by rw [hml]; exact h0, m, hs, ?_⟩
      rw [hml, hkl,
        sliceEq d1 d2 (f.audio_offset + 3) (18 + klOf d1) (mlOf d1) hpre (by omega)]
      exact hms
  · rcases hcov with ⟨h0, hn⟩ | ⟨h0, hs⟩
    · exact Or.inl ⟨by rw [hisz]; exact h0, hn⟩
    · have hadv1 : coverAdvOf d1 = iszOf d1 + ((cflOf d1 : Int) - (iszOf d1 : Int)).toNat := by
        unfold coverAdvOf
        rw [if_pos h0]
      refine Or.inr ⟨by rw [hisz]; exact h0, ?_⟩
      rw [hisz, hkl, hml,
        sliceEq d1 d2 (f.audio_offset + 3) (31 + klOf d1 + mlOf d1) (iszOf d1) hpre
          (by omega)]
      exact hs
  · rw [hao, hkl, hml, hadv]
  · rw [sliceEq d1 d2 (f.audio_offset + 3) f.audio_offset 3 hpre (by omega)]
    exact hfmt

/-- C8: on every successful parse, the final reader position is
`audio_offset + 3`; `audio_offset` is at least 10 bytes past the
beginning and equals the position immediately after the cover-image
frame (31 header/section bytes plus the key and metadata sections plus
the cover advance); and when the declared padding is negative
(`cover_frame_len < image_size` with a nonempty image) it is treated
as zero — the reader stays immediately after the image bytes. -/
theorem parse_audio_offset_spec (P : ExtPrims) (d : List Nat) (f : NcmFileM)
    (p : Nat) (h : parse P d = Except.ok (f, p)) :
    p = f.audio_offset + 3 ∧ 10 ≤ f.audio_offset ∧
    f.audio_offset = 31 + klOf d + mlOf d + coverAdvOf d ∧
    (0 < iszOf d → cflOf d < iszOf d →
      f.audio_offset = 31 + klOf d + mlOf d + iszOf d) := by
  obtain ⟨hb, hmag, hkb, hmeta, hcov, hao, hp, hfmt⟩ := parse_ok_spec h
  refine ⟨hp, by omega, hao, ?_⟩
  intro h1 h2
  rw [hao]
  unfold coverAdvOf
  rw [if_pos h1]
  have hz : ((cflOf d : Int) - (iszOf d : Int)).toNat = 0 :=
    Int.toNat_of_nonpos (by omega)
  omega

/-- C9: on every successful parse, the metadata field is absent
exactly when the `meta_len` field is zero, the cover image is absent
exactly when the `image_size` field is zero, and with `image_size = 0`
the reader advances exactly `cover_frame_len` bytes past the
image-size field (which ends at offset `31 + key_len + meta_len`)
before the audio offset is recorded. -/
theorem parse_optional_sections_spec (P : ExtPrims) (d : List Nat) (f : NcmFileM)
    (p : Nat) (h : parse P d = Except.ok (f, p)) :
    (f.metadata = none ↔ mlOf d = 0) ∧
    (f.cover_image = none ↔ iszOf d = 0) ∧
    (iszOf d = 0 → f.audio_offset = 31 + klOf d + mlOf d + cflOf d) := by
  obtain ⟨hb, hmag, hkb, hmeta, hcov, hao, hp, hfmt⟩ := parse_ok_spec h
  refine ⟨?_, ?_, ?_⟩
  · constructor
    · intro hn
      rcases hmeta with ⟨h0, _⟩ | ⟨h0, m, hs, _⟩
      · exact h0
      · rw [hs] at hn
        exact absurd hn (by simp)
    · intro h0
      rcases hmeta with ⟨_, hn⟩ | ⟨h1, _⟩
      · exact hn
      · omega
  · constructor
    · intro hn
      rcases hcov with ⟨h0, _⟩ | ⟨h0, hs⟩
      · exact h0
      · rw [hs] at hn
        exact absurd hn (by simp)
    · intro h0
      rcases hcov with ⟨_, hn⟩ | ⟨h1, _⟩
      · exact hn
      · omega
  · intro h0
    rw [hao]
    unfold coverAdvOf
    rw [if_neg (by omega)]

/-- Rewriting the decoded record commutes with `from_decrypted`. -/
theorem from_decrypted_withJson (P : ExtPrims) (g : NcmMeta → NcmMeta)
    (dta : List Nat) :
    from_decrypted (withJson P g) dta = (from_decrypted P dta).map g := rfl

/-- Rewriting the decoded record maps through the metadata tail. -/
theorem metaTail_withJson {P : ExtPrims} {g : NcmMeta → NcmMeta}
    {decrypted : List Nat} {m : NcmMeta} (h : metaTail P decrypted = Except.ok m) :
    metaTail (withJson P g) decrypted = Except.ok (g m) := by
  unfold metaTail at h ⊢
  rw [bindOk] at h
  obtain ⟨rest, hr, h⟩ := h
  rw [hr, bind_ok_red]
  rw [from_decrypted_withJson]
  cases hfd : from_decrypted P rest with
  | none =>
    rw [hfd] at h
    exact absurd h (by simp)
  | some m2 =>
    rw [hfd] at h
    have hm : m2 = m := by
      simpa using h
    simp [hm]

/-- Rewriting the decoded record maps through the metadata section. -/
theorem metaSection_withJson {P : ExtPrims} {g : NcmMeta → NcmMeta}
    {md : List Nat} {m : NcmMeta} (h : metaSection P md = Except.ok m) :
    metaSection (withJson P g) md = Except.ok (g m) := by
  unfold metaSection at h ⊢
  rw [bindOk] at h
  obtain ⟨b64, hb64, h⟩ := h
  rw [hb64, bind_ok_red]
  have e1 : (withJson P g).b64decode = P.b64decode := rfl
  rw [e1]
  cases hB : P.b64decode b64 with
  | none =>
    rw [hB] at h
    exact absurd h (by simp)
  | some decoded =>
    rw [hB] at h
    dsimp only at h ⊢
    have e2 : (withJson P g).aesDec = P.aesDec := rfl
    rw [e2]
    cases hA : P.aesDec MODIFY_KEY decoded with
    | none =>
      rw [hA] at h
      exact absurd h (by simp)
    | some decrypted =>
      rw [hA] at h
      exact metaTail_withJson h

/-- The key section ignores the JSON decoder. -/
theorem keySection_withJson (P : ExtPrims) (g : NcmMeta → NcmMeta)
    (kd : List Nat) : keySection (withJson P g) kd = keySection P kd := rfl

/-- C6: on every successful parse the reported format is `Mp3` exactly
when the three bytes at the audio offset, XORed with keystream
positions 0-2, spell `49 44 33`, and `Flac` in every other case; and
the decoded metadata record (in particular its `format` string) has no
influence: rewriting every decoded record through any function `g`
changes only the metadata field of the result, never the format. -/
theorem parse_format_detection (P : ExtPrims) (d : List Nat) (f : NcmFileM)
    (p : Nat) (h : parse P d = Except.ok (f, p)) :
    (f.format = AudioFormat.Mp3 ↔
      xorStream f.key_box 0 ((d.drop f.audio_offset).take 3) = [0x49, 0x44, 0x33]) ∧
    (∀ g : NcmMeta → NcmMeta,
      parse (withJson P g) d =
        Except.ok ({ f with metadata := f.metadata.map g }, p)) := by
  obtain ⟨hb, hmag, hkb, hmeta, hcov, hao, hp, hfmt⟩ := parse_ok_spec h
  constructor
  · constructor
    · intro hM
      by_cases hC : xorStream f.key_box 0 ((d.drop f.audio_offset).take 3)
          = [0x49, 0x44, 0x33]
      · exact hC
      · rw [if_neg hC] at hfmt
        rw [hfmt] at hM
        exact absurd hM (by simp)
    · intro hC
      rw [hfmt, if_pos hC]
  · intro g
    apply parse_build
    refine ⟨hb, hmag, ?_, ?_, hcov, hao, hp, hfmt⟩
    · rw [keySection_withJson]
      exact hkb
    · rcases hmeta with ⟨h0, hn⟩ | ⟨h0, m, hs, hms⟩
      · refine Or.inl ⟨h0, ?_⟩
        show f.metadata.map g = none
        rw [hn]
        rfl
      · refine Or.inr ⟨h0, g m, ?_, metaSection_withJson hms⟩
        show f.metadata.map g = some (g m)
        rw [hs]
        rfl

/-- When AES plaintexts are at least 18 bytes, the key section never
panics: the 17-byte slice succeeds and the RC4 key is non-empty. -/
theorem keySection_no_panic {P : ExtPrims} {kd : List Nat}
    (hA : ∀ k x v, P.aesDec k x = some v → 18 ≤ v.length) :
    keySection P kd ≠ Except.error PFail.panic := by
  intro h
  unfold keySection at h
  cases hA2 : P.aesDec CORE_KEY (kd.map (fun b => b ^^^ 0x64)) with
  | none =>
    rw [hA2] at h
    dsimp only at h
    simp at h
  | some keyDec =>
    rw [hA2] at h
    dsimp only at h
    have hlen := hA CORE_KEY _ keyDec hA2
    rw [bindErr] at h
    rcases h with h | ⟨rc4Key, hrk, h⟩
    · obtain ⟨_, hlt⟩ := panicSlice_err h
      omega
    · obtain ⟨hle, hrke⟩ := panicSlice_ok.mp hrk
      subst hrke
      cases hc : keyDec.drop 17 with
      | nil =>
        have h0 := congrArg List.length hc
        rw [List.length_drop] at h0
        simp at h0
        omega
      | cons a as =>
        rw [hc] at h
        have hsome : rc4_ksa (a :: as) =
            some ((ksaLoop (a :: as) ksaInit 0 256).sbox) := rfl
        rw [hsome] at h
        dsimp only at h
        simp at h

/-- When AES plaintexts are at least 18 bytes and the raw metadata
buffer holds at least 22 bytes, the metadata section never panics. -/
theorem metaSection_no_panic {P : ExtPrims} {md : List Nat}
    (hA : ∀ k x v, P.aesDec k x = some v → 18 ≤ v.length)
    (hlen : 22 ≤ md.length) :
    metaSection P md ≠ Except.error PFail.panic := by
  intro h
  unfold metaSection at h
  rw [bindErr] at h
  rcases h with h | ⟨b64, hb64, h⟩
  · obtain ⟨_, hlt⟩ := panicSlice_err h
    rw [List.length_map] at hlt
    omega
  · cases hB : P.b64decode b64 with
    | none =>
      rw [hB] at h
      dsimp only at h
      simp at h
    | some decoded =>
      rw [hB] at h
      dsimp only at h
      cases hA2 : P.aesDec MODIFY_KEY decoded with
      | none =>
        rw [hA2] at h
        dsimp only at h
        simp at h
      | some decrypted =>
        rw [hA2] at h
        dsimp only at h
        have hlen2 := hA MODIFY_KEY _ decrypted hA2
        unfold metaTail at h
        rw [bindErr] at h
        rcases h with h | ⟨rest, hrest, h⟩
        · obtain ⟨_, hlt⟩ := panicSlice_err h
          omega
        · cases hfd : from_decrypted P rest with
          | none =>
            rw [hfd] at h
            simp at h
          | some m =>
            rw [hfd] at h
            simp at h

/-- The metadata branch never panics when `meta_len` is zero or at
least 22 and AES plaintexts are at least 18 bytes. -/
theorem parseMetaPart_no_panic {P : ExtPrims} {ml : Nat} {r : Rdr}
    (hA : ∀ k x v, P.aesDec k x = some v → 18 ≤ v.length)
    (hM : ml = 0 ∨ 22 ≤ ml) :
    parseMetaPart P ml r ≠ Except.error PFail.panic := by
  intro h
  unfold parseMetaPart at h
  split at h
  · rename_i h0
    have h22 : 22 ≤ ml := by omega
    rw [bindErr] at h
    rcases h with h | ⟨x, hx, h⟩
    · exact PFail.noConfusion (readE_err h)
    · obtain ⟨hbnd, hxe⟩ := readE_ok.mp hx
      subst hxe
      dsimp only at h
      rw [bindErr] at h
      rcases h with h | ⟨m, hm, h⟩
      · have hmlen : ((r.data.drop r.pos).take ml).length = ml := by
          rw [List.length_take, List.length_drop]
          omega
        exact metaSection_no_panic hA (by omega) h
      · simp at h
  · simp at h

/-- The cover branch never panics. -/
theorem parseCoverPart_no_panic {cfl isz : Nat} {r : Rdr} :
    parseCoverPart cfl isz r ≠ Except.error PFail.panic := by
  intro h
  unfold parseCoverPart at h
  split at h
  · rw [bindErr] at h
    rcases h with h | ⟨x, hx, h⟩
    · exact PFail.noConfusion (readE_err h)
    · simp at h
  · simp at h

/-- The final audio-offset / format steps never panic. -/
theorem parseTail_no_panic {kb : Sbox} {md : Option NcmMeta}
    {cover : Option (List Nat)} {r : Rdr} :
    parseTail kb md cover r ≠ Except.error PFail.panic := by
  intro h
  unfold parseTail at h
  rw [bindErr] at h
  rcases h with h | ⟨x, hx, h⟩
  · exact PFail.noConfusion (readE_err h)
  · simp at h

/-- C3 (counterexample): the claim rules out every failure other than
the five documented errors for all values of the length fields, but a
container whose `meta_len` field is 1 drives the parser into the
out-of-range slice `meta_data[22..]` on a 1-byte buffer — a panic, not
an error return (AES is instantiated with a decryptor returning an
18-byte plaintext, as the real AES can). -/
theorem parse_panic_counterexample : parse P1 d1ce = Except.error PFail.panic := by
  rfl

/-- C3 (amended): provided every AES plaintext has at least 18 bytes
(17-byte prefix plus a non-empty RC4 key; this also covers the 6-byte
metadata prefix) and the `meta_len` field is zero or at least 22,
`parse` either returns a parsed container or fails with one of the
five documented error kinds — never a panic. -/
theorem parse_no_panic_guarded (P : ExtPrims) (d : List Nat)
    (hA : ∀ k x v, P.aesDec k x = some v → 18 ≤ v.length)
    (hM : mlOf d = 0 ∨ 22 ≤ mlOf d) :
    (∃ x, parse P d = Except.ok x) ∨
      ∃ e, parse P d = Except.error (PFail.err e) := by
  have hnp : parse P d ≠ Except.error PFail.panic := by
    intro h
    unfold parse at h
    rw [bindErr] at h
    rcases h with h | ⟨x1, hx1, h⟩
    · exact PFail.noConfusion (readE_err h)
    · obtain ⟨hb1, hx1e⟩ := readE_ok.mp hx1
      have hx1f : x1 = (d.take 8, Rdr.mk d 8) := hx1e.trans rfl
      subst hx1f
      simp only [] at h
      by_cases hmag : d.take 8 = NCM_MAGIC
      · rw [if_pos hmag] at h
        rw [bindErr] at h
        rcases h with h | ⟨x2, hx2, h⟩
        · exact PFail.noConfusion (readE_err h)
        obtain ⟨hb2, hx2e⟩ := readE_ok.mp hx2
        have hx2f : x2 = ((d.drop 10).take 4, Rdr.mk d 14) := hx2e.trans rfl
        subst hx2f
        simp only [] at h
        rw [bindErr] at h
        rcases h with h | ⟨x3, hx3, h⟩
        · exact PFail.noConfusion (readE_err h)
        obtain ⟨hb3, hx3e⟩ := readE_ok.mp hx3
        have hx3f : x3 = ((d.drop 14).take (klOf d), Rdr.mk d (14 + klOf d)) :=
          hx3e.trans rfl
        subst hx3f
        simp only [] at h
        rw [bindErr] at h
        rcases h with h | ⟨kb, hkb, h⟩
        · exact keySection_no_panic hA h
        rw [bindErr] at h
        rcases h with h | ⟨x4, hx4, h⟩
        · exact PFail.noConfusion (readE_err h)
        obtain ⟨hb4, hx4e⟩ := readE_ok.mp hx4
        have hx4f : x4 = ((d.drop (14 + klOf d)).take 4,
            Rdr.mk d (14 + klOf d + 4)) := hx4e.trans rfl
        subst hx4f
        simp only [] at h
        rw [bindErr] at h
        rcases h with h | ⟨x5, hx5, h⟩
        · exact parseMetaPart_no_panic hA hM h
        rw [bindErr] at h
        rcases h with h | ⟨x6, hx6, h⟩
        · exact PFail.noConfusion (readE_err h)
        rw [bindErr] at h
        rcases h with h | ⟨x7, hx7, h⟩
        · exact PFail.noConfusion (readE_err h)
        rw [bindErr] at h
        rcases h with h | ⟨x8, hx8, h⟩
        · exact parseCoverPart_no_panic h
        · exact parseTail_no_panic h
      · rw [if_neg hmag] at h
        simp at h
  cases hpd : parse P d with
  | ok x => exact Or.inl ⟨x, rfl⟩
  | error pf =>
    cases pf with
    | err e => exact Or.inr ⟨e, rfl⟩
    | panic => exact absurd hpd hnp

/-- C3 (witness): instantiation at primitives whose AES plaintexts
have 18 bytes and a concrete well-formed container with `meta_len = 0`. -/
theorem parse_no_panic_guarded_witness :
    (∃ x, parse P0 d0w = Except.ok x) ∨
      ∃ e, parse P0 d0w = Except.error (PFail.err e) :=
  parse_no_panic_guarded P0 d0w
    (by
      intro k x v hv
      have hve := Option.some.inj hv
      rw [← hve]
      decide)
    (Or.inl (by decide))

/-- C7 (counterexample): the claim says the JSON parser receives
exactly the decrypted plaintext minus its first 6 bytes; on a
plaintext carrying the 6-byte prefix twice, the parser strips 6 more
bytes in `from_decrypted`, so a JSON decoder that accepts exactly the
claimed bytes is never given them — the metadata tail fails with
`Json` where the claim predicts success. -/
theorem metaTail_double_strip_counterexample :
    metaTail P2 dec2 ≠ claimedMetaTail P2 dec2 := by
  intro hcon
  have h1 : metaTail P2 dec2 = Except.error (PFail.err PErr.json) := by rfl
  have h2 : claimedMetaTail P2 dec2 = Except.ok m0 := by rfl
  rw [h1, h2] at hcon
  exact Except.noConfusion hcon

/-- C7 (amended): for every decrypted plaintext of at least 6 bytes,
the parser strips exactly the first 6 bytes and hands the remainder to
`from_decrypted`, which strips 6 further bytes when the remainder
again begins with the 6-byte prefix; the JSON parser receives exactly
that conditionally re-stripped suffix (and a plaintext shorter than 6
bytes panics the slice instead). -/
theorem metaTail_strip_spec (P : ExtPrims) (decrypted : List Nat)
    (h : 6 ≤ decrypted.length) :
    metaTail P decrypted =
      (match P.jsonDecode (stripMusic6 (decrypted.drop 6)) with
        | some m => Except.ok m
        | none => Except.error (PFail.err PErr.json)) := by
  unfold metaTail
  have hs : panicSlice decrypted 6 = Except.ok (decrypted.drop 6) :=
    panicSlice_ok.mpr ⟨h, rfl⟩
  rw [hs, bind_ok_red]
  rfl

/-- C7 (witness): instantiation at the double-prefixed plaintext. -/
theorem metaTail_strip_spec_witness :
    metaTail P2 dec2 =
      (match P2.jsonDecode (stripMusic6 (dec2.drop 6)) with
        | some m => Except.ok m
        | none => Except.error (PFail.err PErr.json)) :=
  metaTail_strip_spec P2 dec2 (by decide)

/-- C8 (witness): instantiation at the concrete container `d0w`. -/
theorem parse_audio_offset_spec_witness :
    p0w = F0.audio_offset + 3 ∧ 10 ≤ F0.audio_offset ∧
    F0.audio_offset = 31 + klOf d0w + mlOf d0w + coverAdvOf d0w ∧
    (0 < iszOf d0w → cflOf d0w < iszOf d0w →
      F0.audio_offset = 31 + klOf d0w + mlOf d0w + iszOf d0w) :=
  parse_audio_offset_spec P0 d0w F0 p0w (by rfl)

/-- C9 (witness): instantiation at the concrete container `d0w`. -/
theorem parse_optional_sections_spec_witness :
    (F0.metadata = none ↔ mlOf d0w = 0) ∧
    (F0.cover_image = none ↔ iszOf d0w = 0) ∧
    (iszOf d0w = 0 → F0.audio_offset = 31 + klOf d0w + mlOf d0w + cflOf d0w) :=
  parse_optional_sections_spec P0 d0w F0 p0w (by rfl)

/-- C6 (witness): instantiation at the concrete container `d0w`. -/
theorem parse_format_detection_witness :
    (F0.format = AudioFormat.Mp3 ↔
      xorStream F0.key_box 0 ((d0w.drop F0.audio_offset).take 3) = [0x49, 0x44, 0x33]) ∧
    (∀ g : NcmMeta → NcmMeta,
      parse (withJson P0 g) d0w =
        Except.ok ({ F0 with metadata := F0.metadata.map g }, p0w)) :=
  parse_format_detection P0 d0w F0 p0w (by rfl)

/-- C10 (witness): appending a byte past the audio header leaves the
parse result unchanged. -/
theorem parse_prefix_determined_witness :
    parse P0 d10b = Except.ok (F0, p0w) :=
  parse_prefix_determined P0 d0w d10b F0 p0w (by rfl) (by rfl)
